import Mathlib

/-!
# Verification of `apollo-helpers`

A shallow embedding of the two source files of the `apollo-helpers`
library, `src/compile-graphql-resources.js` and `src/create-executor.js`,
together with theorems settling the specification's claims about them.

Modelling conventions:

* A JavaScript value appearing in a resolver tree or a context object is a
  `JVal`: either an opaque leaf (a resolver function, string, number, ...)
  identified by a numeral standing for its reference identity, or a plain
  object, i.e. an ordered association list of fields (`JObj`).  Two leaves
  are the "same reference" exactly when their numerals coincide.
* JavaScript `undefined` for the context argument is modelled as `none` in
  `Option JVal`; calling `getContext()` with no argument is the same as
  calling it with `undefined`.
* A `context` function may throw: it returns `Except JVal JObj`, the
  `error` case carrying the thrown JavaScript value.
* The Ramda combinators the source uses (`R.mergeDeepRight`, `R.mergeAll`,
  `R.juxt`, `R.pluck` + `R.reject(R.isNil)`, `arrify`) are embedded from
  their actual semantics: key order of a merge is the left object's keys
  first (merged where shared), then the right object's new keys, matching
  Ramda's `mergeWithKey` / `Object.assign`.
* The external graphql collaborators (`makeExecutableSchema`, `parse`,
  `execute`, `subscribe`) are uninterpreted parameters; `iterall`'s
  `forAwaitEach` is modelled from the spec (see its doc comment).
-/

namespace ApolloHelpers

/-- A JavaScript value inside a resolver tree or context object: an opaque
leaf (e.g. a resolver function) identified by its reference, or a plain
object given as an ordered list of key/value fields. -/
inductive JVal : Type where
  | leaf : Nat → JVal
  | obj : List (String × JVal) → JVal

/-- A plain JavaScript object: an ordered list of fields. -/
abbrev JObj := List (String × JVal)

/-- Property read `o[k]`: the first field named `k`, if any. -/
def lookupField : JObj → String → Option JVal
  | [], _ => none
  | (k', v) :: rest, k => if k' = k then some v else lookupField rest k

/-- `JVal.isObj v` is `true` exactly when `v` is a plain object (Ramda's
`_isObject` test that guards the recursive branch of `mergeDeepRight`). -/
def JVal.isObj : JVal → Bool
  | .obj _ => true
  | .leaf _ => false

theorem sizeOf_lookupField (r : JObj) (k : String) :
    sizeOf (lookupField r k) ≤ sizeOf r := by
  induction r with
  | nil => simp [lookupField]
  | cons p rest ih =>
    obtain ⟨k', v⟩ := p
    simp only [lookupField]
    split
    · simp
      omega
    · simp
      omega

mutual

/-- Ramda's `R.mergeDeepRight l r`: if both values are plain objects the
merge recurses fieldwise, otherwise the right value wins outright. -/
def mergeDeepRight : JVal → JVal → JVal
  | .obj l, .obj r =>
      .obj (mergeLeft l r ++ r.filter (fun p => (lookupField l p.1).isNone))
  | _, r => r
termination_by l r => sizeOf l + sizeOf r
decreasing_by
  all_goals (simp_wf; omega)

/-- Merge step for one shared key: when the right object has the key, deep
merge the two values; otherwise keep the left value. -/
def mergeOpt (v : JVal) : Option JVal → JVal
  | some rv => mergeDeepRight v rv
  | none => v
termination_by o => sizeOf v + sizeOf o
decreasing_by
  all_goals simp_wf

/-- The left object's fields, each deep-merged with the right object's
value at the same key when present (first loop of Ramda's `mergeWithKey`). -/
def mergeLeft : JObj → JObj → JObj
  | [], _ => []
  | (k, v) :: rest, r => (k, mergeOpt v (lookupField r k)) :: mergeLeft rest r
termination_by l r => sizeOf l + sizeOf r
decreasing_by
  · have hsz := sizeOf_lookupField r k
    simp_wf
    omega
  · simp_wf

end

/-- `R.mergeDeepRight` restricted to two plain objects, the form in which
the source folds resolver trees. -/
def mergeDeepFields (l r : JObj) : JObj :=
  mergeLeft l r ++ r.filter (fun p => (lookupField l p.1).isNone)

/-- `Object.assign({}, l, r)`: the shallow right-biased merge of two
objects. -/
def assignRight (l r : JObj) : JObj :=
  l.map (fun p => (p.1, (lookupField r p.1).getD p.2)) ++
    r.filter (fun p => (lookupField l p.1).isNone)

/-- Ramda's `R.mergeAll objs` = `Object.assign({}, ...objs)`: shallow merge
of a list of objects, later objects overriding earlier ones keywise. -/
def mergeAll (objs : List JObj) : JObj := objs.foldl assignRight []

/-- The argument handed to a module's `context` function (`req`); `none`
models JavaScript `undefined`. -/
abbrev JArg := Option JVal

/-- A module's `context` function: it receives the request argument and
either returns an object or throws a JavaScript value. -/
abbrev ContextFn := JArg → Except JVal JObj

/-- A graphql module descriptor: optional `schema` text, optional
`resolvers` tree, optional `context` function. -/
structure Module where
  schema : Option String := none
  resolvers : Option JObj := none
  context : Option ContextFn := none

/-- The input of `compileGraphqlResources`: a bare module or an array. -/
inductive ModulesInput : Type where
  | single : Module → ModulesInput
  | many : List Module → ModulesInput

/-- `R.ifElse(R.is(Array), R.identity, R.of)` from the source: wrap a bare
module into a one-element array, pass an array through. -/
def arrify : ModulesInput → List Module
  | .single m => [m]
  | .many ms => ms

/-- `R.juxt` applied to the collected `context` functions: call every
function with the same argument, left to right, collecting the results; a
thrown value aborts the remaining calls and propagates. -/
def juxt (fns : List ContextFn) (req : JArg) : Except JVal (List JObj) :=
  match fns with
  | [] => .ok []
  | f :: rest =>
    match f req with
    | .error e => .error e
    | .ok o =>
      match juxt rest req with
      | .error e => .error e
      | .ok os => .ok (o :: os)

/-- `R.pluck('schema')` then `R.reject(R.isNil)`. -/
def getTypeDefs (ms : List Module) : List String :=
  (ms.map Module.schema).filterMap id

/-- `R.pluck('resolvers')`, `R.reject(R.isNil)`, then
`R.reduce(R.mergeDeepRight, {})`. -/
def getResolvers (ms : List Module) : JObj :=
  ((ms.map Module.resolvers).filterMap id).foldl mergeDeepFields []

/-- `R.pluck('context')` then `R.reject(R.isNil)`: the ordered list of the
present `context` functions. -/
def getContextFns (ms : List Module) : List ContextFn :=
  (ms.map Module.context).filterMap id

/-- The compiled bundle returned by `compileGraphqlResources`. -/
structure GraphqlResources where
  typeDefs : List String
  resolvers : JObj
  getContext : JArg → Except JVal JObj

/-- `compileGraphqlResources` from `src/compile-graphql-resources.js`:
arrify the input, project `typeDefs`, deep-merge `resolvers`, and build
`getContext req = R.mergeAll(getContexts req)`. -/
def compileGraphqlResources (modules : ModulesInput) : GraphqlResources :=
  let ms := arrify modules
  { typeDefs := getTypeDefs ms
    resolvers := getResolvers ms
    getContext := fun req => (juxt (getContextFns ms) req).map mergeAll }

/-- The options a caller may pass to `run`/`subscribe`; every field is
optional (`none` models an absent / `undefined` property). -/
structure GraphqlOptions where
  contextArg : JArg := none
  contextValue : Option JObj := none
  rootValue : Option JVal := none
  operationName : Option String := none
  variableValues : Option JObj := none

/-- The object handed to the external execution collaborator:
`Object.assign({}, graphqlOptions, { schema, document, contextValue })`,
so the caller's fields are spread and `schema`, `document`, `contextValue`
are set on top.  `S` is the opaque schema type, `D` the parsed-document
type of the external engine. -/
structure ExecOptions (S D : Type) where
  schema : S
  document : D
  contextValue : JObj
  contextArg : JArg
  rootValue : Option JVal
  operationName : Option String
  variableValues : Option JObj

/-- `getOptions` from `src/create-executor.js`: default the options to
`{}`, compute the effective context as
`Object.assign({}, graphqlOptions.contextValue, resources.getContext(graphqlOptions.contextArg))`
(so the module-derived context is merged on top of the explicit one), then
parse the query; a value thrown by a `context` function or by `parse`
propagates. -/
def getOptions {S D : Type} (schema : S) (parse : String → Except JVal D)
    (resources : GraphqlResources) (query : String)
    (graphqlOptions : Option GraphqlOptions) : Except JVal (ExecOptions S D) :=
  let opts := graphqlOptions.getD {}
  match resources.getContext opts.contextArg with
  | .error e => .error e
  | .ok ctx =>
    match parse query with
    | .error e => .error e
    | .ok doc =>
      .ok { schema := schema
            document := doc
            contextValue := assignRight (opts.contextValue.getD []) ctx
            contextArg := opts.contextArg
            rootValue := opts.rootValue
            operationName := opts.operationName
            variableValues := opts.variableValues }

/-- The schema the executor builds once at construction:
`makeExecutableSchema({ typeDefs, resolvers })` applied to the compiled
resources; `makeExecutableSchema` is an uninterpreted collaborator. -/
def createExecutorSchema {S : Type} (makeExecutableSchema : List String → JObj → S)
    (graphqlModules : ModulesInput) : S :=
  let resources := compileGraphqlResources graphqlModules
  makeExecutableSchema resources.typeDefs resources.resolvers

/-- `runQuery` from `src/create-executor.js`: resolve the options, then
hand them to the external `execute` collaborator and return its result
(`Res` is the external engine's promise-of-result type). -/
def runQuery {S D Res : Type} (makeExecutableSchema : List String → JObj → S)
    (parse : String → Except JVal D) (execute : ExecOptions S D → Res)
    (graphqlModules : ModulesInput) (query : String)
    (graphqlOptions : Option GraphqlOptions) : Except JVal Res :=
  match getOptions (createExecutorSchema makeExecutableSchema graphqlModules)
      parse (compileGraphqlResources graphqlModules) query graphqlOptions with
  | .error e => .error e
  | .ok options => .ok (execute options)

/-- Modelled from the spec: the external async-iteration collaborator
(`iterall`'s `forAwaitEach`, which is not part of this repository)
"consumes an async sequence to completion, invoking a callback per
element".  The async sequence is modelled by the ordered list of values it
produces, and the result is the ordered list of callback invocations. -/
def forAwaitEach {R C : Type} (results : List R) (callback : R → C) : List C :=
  results.map callback

/-- `runSubscribe` from `src/create-executor.js`: resolve the options the
same way `runQuery` does, obtain the async sequence from the external
subscription collaborator (whose rejection is the `error` case), and
iterate it with the callback. -/
def runSubscribe {S D R C : Type} (makeExecutableSchema : List String → JObj → S)
    (parse : String → Except JVal D)
    (subscribeExec : ExecOptions S D → Except JVal (List R))
    (graphqlModules : ModulesInput) (query : String)
    (graphqlOptions : Option GraphqlOptions) (callback : R → C) :
    Except JVal (List C) :=
  match getOptions (createExecutorSchema makeExecutableSchema graphqlModules)
      parse (compileGraphqlResources graphqlModules) query graphqlOptions with
  | .error e => .error e
  | .ok options =>
    match subscribeExec options with
    | .error e => .error e
    | .ok iterator => .ok (forAwaitEach iterator callback)

/-- Spec-side restatement of the `typeDefs` clause, transcribed from the
spec's words: "project the `schema` field of every descriptor (in order),
discard entries that are absent/nil; the result preserves relative order".
Compared with the compiled `typeDefs` in the claim `C3` theorem. -/
def typeDefsSpec : List Module → List String
  | [] => []
  | m :: rest =>
    match m.schema with
    | some s => s :: typeDefsSpec rest
    | none => typeDefsSpec rest

/-- Two-level path read `o[t][f]`, addressing one resolver function
(`resolvers.TypeA.fieldX`) inside a resolver tree. -/
def lookupPath2 (o : JObj) (t f : String) : Option JVal :=
  match lookupField o t with
  | some (.obj fs) => lookupField fs f
  | _ => none

/-- The value that "wins" for key `k` after shallow-merging `objs` left to
right: the value of the last object that contains `k`, taken verbatim. -/
def lookupLast (objs : List JObj) (k : String) : Option JVal :=
  objs.foldl
    (fun acc o =>
      match lookupField o k with
      | some v => some v
      | none => acc)
    none

theorem lookupField_append (a b : JObj) (k : String) :
    lookupField (a ++ b) k =
      match lookupField a k with
      | some v => some v
      | none => lookupField b k := by
  induction a with
  | nil => simp [lookupField]
  | cons p rest ih =>
    obtain ⟨k', v⟩ := p
    by_cases hk : k' = k <;> simp [lookupField, hk, ih]

theorem lookupField_filter_of_none (l r : JObj) (k : String)
    (h : lookupField l k = none) :
    lookupField (r.filter (fun p => (lookupField l p.1).isNone)) k =
      lookupField r k := by
  induction r with
  | nil => simp
  | cons p rest ih =>
    obtain ⟨k', v⟩ := p
    by_cases hk : k' = k
    · subst hk
      simp [List.filter, h, lookupField]
    · by_cases hkeep : (lookupField l k').isNone <;>
        simp [List.filter, hkeep, lookupField, hk, ih]

theorem lookupField_filter_of_some (l r : JObj) (k : String)
    (h : (lookupField l k).isSome) :
    lookupField (r.filter (fun p => (lookupField l p.1).isNone)) k = none := by
  induction r with
  | nil => simp [lookupField]
  | cons p rest ih =>
    obtain ⟨k', v⟩ := p
    by_cases hk : k' = k
    · subst hk
      rcases hv : lookupField l k' with _ | w
      · rw [hv] at h
        simp at h
      · simp [List.filter, hv, lookupField, ih]
    · by_cases hkeep : (lookupField l k').isNone <;>
        simp [List.filter, hkeep, lookupField, hk, ih]

theorem lookupField_mergeLeft (l r : JObj) (k : String) :
    lookupField (mergeLeft l r) k =
      (lookupField l k).map (fun lv => mergeOpt lv (lookupField r k)) := by
  induction l with
  | nil => simp [mergeLeft, lookupField]
  | cons p rest ih =>
    obtain ⟨k', v⟩ := p
    by_cases hk : k' = k <;> simp [mergeLeft, lookupField, hk, ih]

/-- Keywise description of Ramda's deep merge of two objects: the result
has the union of the keys; a key only in one side keeps that side's value;
a key in both gets the recursive `mergeDeepRight` of the two values. -/
theorem lookupField_mergeDeepFields (l r : JObj) (k : String) :
    lookupField (mergeDeepFields l r) k =
      match lookupField l k, lookupField r k with
      | some lv, some rv => some (mergeDeepRight lv rv)
      | some lv, none => some lv
      | none, o => o := by
  rw [mergeDeepFields, lookupField_append, lookupField_mergeLeft]
  rcases hl : lookupField l k with _ | lv
  · simp [lookupField_filter_of_none l r k hl]
  · have hs : (lookupField l k).isSome := by simp [hl]
    rcases hr : lookupField r k with _ | rv <;>
      simp [lookupField_filter_of_some l r k hs, mergeOpt]

theorem mergeDeepRight_obj (l r : JObj) :
    mergeDeepRight (.obj l) (.obj r) = .obj (mergeDeepFields l r) := by
  rw [mergeDeepRight, mergeDeepFields]

theorem mergeDeepRight_not_obj (lv rv : JVal)
    (h : lv.isObj = false ∨ rv.isObj = false) :
    mergeDeepRight lv rv = rv := by
  cases lv <;> cases rv <;>
    simp_all [JVal.isObj, mergeDeepRight]

theorem lookupField_assignRight (l r : JObj) (k : String) :
    lookupField (assignRight l r) k =
      match lookupField r k with
      | some rv => some rv
      | none => lookupField l k := by
  rw [assignRight, lookupField_append]
  have hmap : lookupField (l.map (fun p => (p.1, (lookupField r p.1).getD p.2))) k =
      (lookupField l k).map (fun lv => (lookupField r k).getD lv) := by
    induction l with
    | nil => simp [lookupField]
    | cons p rest ih =>
      obtain ⟨k', v⟩ := p
      by_cases hk : k' = k <;> simp [lookupField, hk, ih]
  rw [hmap]
  rcases hl : lookupField l k with _ | lv
  · rw [lookupField_filter_of_none l r k hl]
    rcases lookupField r k with _ | rv <;> rfl
  · have hs : (lookupField l k).isSome := by simp [hl]
    rcases hr : lookupField r k with _ | rv <;>
      simp [lookupField_filter_of_some l r k hs]

theorem lookupLast_seed (objs : List JObj) (k : String) (seed : Option JVal) :
    objs.foldl
        (fun acc o =>
          match lookupField o k with
          | some v => some v
          | none => acc)
        seed =
      match lookupLast objs k with
      | some v => some v
      | none => seed := by
  induction objs generalizing seed with
  | nil => simp [lookupLast]
  | cons o rest ih =>
    rw [List.foldl_cons, ih]
    have hcons : lookupLast (o :: rest) k =
        rest.foldl
          (fun acc o =>
            match lookupField o k with
            | some v => some v
            | none => acc)
          (match lookupField o k with
           | some v => some v
           | none => none) := by
      rw [lookupLast, List.foldl_cons]
    rw [hcons, ih]
    rcases lookupLast rest k with _ | v
    · rcases lookupField o k with _ | w <;> rfl
    · rfl

theorem lookupLast_cons (o : JObj) (rest : List JObj) (k : String) :
    lookupLast (o :: rest) k =
      match lookupLast rest k with
      | some v => some v
      | none => lookupField o k := by
  have hcons : lookupLast (o :: rest) k =
      rest.foldl
        (fun acc o =>
          match lookupField o k with
          | some v => some v
          | none => acc)
        (match lookupField o k with
         | some v => some v
         | none => none) := by
    rw [lookupLast, List.foldl_cons]
  rw [hcons, lookupLast_seed]
  rcases lookupLast rest k with _ | v
  · rcases lookupField o k with _ | w <;> rfl
  · rfl

theorem lookupField_foldl_assignRight (objs : List JObj) (init : JObj)
    (k : String) :
    lookupField (objs.foldl assignRight init) k =
      match lookupLast objs k with
      | some v => some v
      | none => lookupField init k := by
  induction objs generalizing init with
  | nil => simp [lookupLast]
  | cons o rest ih =>
    rw [List.foldl_cons, ih, lookupField_assignRight, lookupLast_cons]
    rcases lookupLast rest k with _ | v
    · rcases lookupField o k with _ | w <;> rfl
    · rfl

/-- The shallow merge `mergeAll` is "later wins, no recursion": the value
at key `k` is exactly the value held by the last object containing `k`. -/
theorem lookupField_mergeAll (objs : List JObj) (k : String) :
    lookupField (mergeAll objs) k = lookupLast objs k := by
  rw [mergeAll, lookupField_foldl_assignRight]
  rcases lookupLast objs k with _ | v <;> simp [lookupField]

theorem mergeDeepFields_nil_left (r : JObj) : mergeDeepFields [] r = r := by
  rw [mergeDeepFields, mergeLeft]
  simp [List.filter, lookupField]

theorem assignRight_nil_left (r : JObj) : assignRight [] r = r := by
  rw [assignRight]
  simp [List.filter, lookupField]

/-- If `juxt` succeeds, the returned list has one entry per collected
function, and the `i`-th entry is exactly what the `i`-th function
returned on the shared argument. -/
theorem juxt_ok_spec (fns : List ContextFn) (req : JArg) (objs : List JObj)
    (h : juxt fns req = .ok objs) :
    objs.length = fns.length ∧
      ∀ (i : Nat) (hi : i < objs.length) (hj : i < fns.length),
        fns[i] req = .ok objs[i] := by
  induction fns generalizing objs with
  | nil =>
    rw [juxt] at h
    cases h
    simp
  | cons f rest ih =>
    rw [juxt] at h
    rcases hf : f req with e | o <;> rw [hf] at h
    · cases h
    · rcases hrest : juxt rest req with e | os <;> rw [hrest] at h
      · cases h
      · cases h
        obtain ⟨hlen, hget⟩ := ih os hrest
        refine ⟨by simp [hlen], ?_⟩
        intro i hi hj
        cases i with
        | zero => simpa using hf
        | succ n =>
          simpa using hget n (by simpa using hi) (by simpa using hj)

/-- If every function before `f` returns normally and `f` throws `e`,
`juxt` of the whole list throws exactly `e`. -/
theorem juxt_append_error (pre post : List ContextFn) (f : ContextFn)
    (req : JArg) (e : JVal) (hpre : ∀ g ∈ pre, ∃ o, g req = .ok o)
    (hf : f req = .error e) :
    juxt (pre ++ f :: post) req = .error e := by
  induction pre with
  | nil =>
    rw [List.nil_append, juxt, hf]
  | cons g rest ih =>
    obtain ⟨o, ho⟩ := hpre g (by simp)
    have htail := ih (fun g' hg' => hpre g' (by simp [hg']))
    rw [List.cons_append, juxt, ho, htail]

theorem getContextFns_eq_nil (ms : List Module)
    (h : ∀ m ∈ ms, m.context = none) : getContextFns ms = [] := by
  induction ms with
  | nil => rfl
  | cons m rest ih =>
    have hm : m.context = none := h m (by simp)
    have htail : getContextFns rest = [] :=
      ih (fun m' hm' => h m' (by simp [hm']))
    rw [getContextFns] at htail ⊢
    simp only [List.map_cons, List.filterMap_cons, hm]
    exact htail

theorem getTypeDefs_eq_spec (ms : List Module) :
    getTypeDefs ms = typeDefsSpec ms := by
  induction ms with
  | nil => rfl
  | cons m rest ih =>
    rw [getTypeDefs] at ih ⊢
    rw [typeDefsSpec]
    simp only [List.map_cons, List.filterMap_cons]
    rcases m.schema with _ | s <;> simp [ih]

theorem typeDefsSpec_count (ms : List Module) (s : String) :
    (typeDefsSpec ms).count s
      = (ms.filter (fun m => m.schema = some s)).length := by
  induction ms with
  | nil => rfl
  | cons m rest ih =>
    rw [typeDefsSpec]
    rcases hm : m.schema with _ | t
    · simp [List.filter, hm, ih]
    · by_cases hts : t = s
      · subst hts
        simp [List.filter, hm, List.count_cons, ih]
      · simp [List.filter, hm, List.count_cons, hts, ih]

/-- C1: `compile(M).resolvers` equals the left-to-right fold, starting
from the empty mapping, of the present `resolvers` trees under the
deep-merge rule: the merged object has the union of the keys; for a key
present on both sides the merge recurses when both values are mappings and
otherwise the right-hand (later) value wins outright; in particular, when
two modules both define the same leaf resolver, the compiled bundle holds
the later module's function (reference equality of the leaf). -/
theorem compile_resolvers_deep_merge (input : ModulesInput) :
    (compileGraphqlResources input).resolvers
        = (((arrify input).map Module.resolvers).filterMap id).foldl
            mergeDeepFields []
    ∧ (∀ (l r : JObj) (k : String),
        lookupField (mergeDeepFields l r) k =
          match lookupField l k, lookupField r k with
          | some lv, some rv => some (mergeDeepRight lv rv)
          | some lv, none => some lv
          | none, o => o)
    ∧ (∀ a b : JObj,
        mergeDeepRight (.obj a) (.obj b) = .obj (mergeDeepFields a b))
    ∧ (∀ lv rv : JVal,
        lv.isObj = false ∨ rv.isObj = false → mergeDeepRight lv rv = rv)
    ∧ (∀ (m1 m2 : Module) (r1 r2 : JObj) (t f : String) (n1 n2 : Nat),
        m1.resolvers = some r1 → m2.resolvers = some r2 →
        lookupPath2 r1 t f = some (.leaf n1) →
        lookupPath2 r2 t f = some (.leaf n2) →
        lookupPath2 (compileGraphqlResources (.many [m1, m2])).resolvers t f
          = some (.leaf n2)) := by
  refine ⟨rfl, lookupField_mergeDeepFields, mergeDeepRight_obj,
    mergeDeepRight_not_obj, ?_⟩
  intro m1 m2 r1 r2 t f n1 n2 h1 h2 hp1 hp2
  have hres : (compileGraphqlResources (.many [m1, m2])).resolvers
      = mergeDeepFields r1 r2 := by
    show getResolvers [m1, m2] = _
    rw [getResolvers]
    simp only [List.map_cons, List.map_nil, h1, h2, List.filterMap_cons,
      id, List.filterMap_nil, List.foldl_cons, List.foldl_nil,
      mergeDeepFields_nil_left]
  rw [hres]
  unfold lookupPath2 at hp1 hp2 ⊢
  rcases ht1 : lookupField r1 t with _ | v1 <;> rw [ht1] at hp1
  · exact absurd hp1 (by simp)
  rcases v1 with n | fs1
  · exact absurd hp1 (by simp)
  rcases ht2 : lookupField r2 t with _ | v2 <;> rw [ht2] at hp2
  · exact absurd hp2 (by simp)
  rcases v2 with n | fs2
  · exact absurd hp2 (by simp)
  simp only at hp1 hp2
  rw [lookupField_mergeDeepFields, ht1, ht2]
  simp only [mergeDeepRight_obj]
  rw [lookupField_mergeDeepFields, hp1, hp2]
  show some (mergeDeepRight (.leaf n1) (.leaf n2)) = some (.leaf n2)
  rw [mergeDeepRight_not_obj (.leaf n1) (.leaf n2) (Or.inl rfl)]

/-- Witness for `C1`: two concrete modules both defining the leaf resolver
`Query.health`; the compiled bundle holds the second module's function. -/
theorem compile_resolvers_deep_merge_witness :
    lookupPath2
        (compileGraphqlResources (.many
          [{ resolvers := some [("Query", .obj [("health", .leaf 1)])] },
           { resolvers := some [("Query", .obj [("health", .leaf 2)])] }])).resolvers
        "Query" "health" = some (.leaf 2)
    ∧ mergeDeepRight (.leaf 7) (.leaf 8) = .leaf 8 := by
  have h := compile_resolvers_deep_merge (.many
    [{ resolvers := some [("Query", .obj [("health", .leaf 1)])] },
     { resolvers := some [("Query", .obj [("health", .leaf 2)])] }])
  refine ⟨?_, h.2.2.2.1 (.leaf 7) (.leaf 8) (Or.inl rfl)⟩
  exact h.2.2.2.2 _ _ _ _ "Query" "health" 1 2 rfl rfl rfl rfl

/-- C2: `compile(M).getContext req` invokes each present `context`
function with `req` in descriptor order (third conjunct), returns the
left-to-right shallow merge of the returned objects (first conjunct), and
on duplicate top-level keys the later function's value wins verbatim, with
no recursive merging (fourth conjunct, via `lookupLast`); the
no-argument call is the `req = none` (JavaScript `undefined`) instance. -/
theorem getContext_shallow_merge (input : ModulesInput) (req : JArg)
    (objs : List JObj)
    (h : juxt (getContextFns (arrify input)) req = .ok objs) :
    (compileGraphqlResources input).getContext req = .ok (mergeAll objs)
    ∧ objs.length = (getContextFns (arrify input)).length
    ∧ (∀ (i : Nat) (hi : i < objs.length)
        (hj : i < (getContextFns (arrify input)).length),
        (getContextFns (arrify input))[i] req = .ok objs[i])
    ∧ (∀ k : String, lookupField (mergeAll objs) k = lookupLast objs k) := by
  obtain ⟨hlen, hget⟩ := juxt_ok_spec _ req objs h
  refine ⟨?_, hlen, hget, lookupField_mergeAll objs⟩
  show (juxt (getContextFns (arrify input)) req).map mergeAll = .ok (mergeAll objs)
  rw [h]
  rfl

/-- Witness for `C2`: two concrete context functions; the later one wins
the duplicate key `b` outright (its object value replaces the earlier leaf
with no recursive merge). -/
theorem getContext_shallow_merge_witness :
    (compileGraphqlResources (.many
        [{ context := some (fun _ => .ok [("a", .leaf 1), ("b", .leaf 2)]) },
         { context := some (fun _ => .ok [("b", .obj [("c", .leaf 3)])]) }])).getContext
        none
      = .ok [("a", .leaf 1), ("b", .obj [("c", .leaf 3)])] := by
  have h := getContext_shallow_merge (.many
      [{ context := some (fun _ => .ok [("a", .leaf 1), ("b", .leaf 2)]) },
       { context := some (fun _ => .ok [("b", .obj [("c", .leaf 3)])]) }])
      none [[("a", .leaf 1), ("b", .leaf 2)], [("b", .obj [("c", .leaf 3)])]]
      rfl
  rw [h.1]
  rfl

/-- C3: `compile(M).typeDefs` is the ordered projection of the present
`schema` fields, in input order, omitting absent entries (first conjunct,
against the spec-transcribed `typeDefsSpec`), and performs no
deduplication: each string occurs exactly as often as modules supply it
(second conjunct). -/
theorem compile_typeDefs_projection (input : ModulesInput) :
    (compileGraphqlResources input).typeDefs = typeDefsSpec (arrify input)
    ∧ ∀ s : String,
        ((compileGraphqlResources input).typeDefs).count s
          = ((arrify input).filter (fun m => m.schema = some s)).length := by
  have htd : (compileGraphqlResources input).typeDefs
      = typeDefsSpec (arrify input) := getTypeDefs_eq_spec (arrify input)
  exact ⟨htd, fun s => by rw [htd, typeDefsSpec_count]⟩

/-- Witness for `C3`: a duplicate schema string survives and the absent
entry is dropped. -/
theorem compile_typeDefs_projection_witness :
    (compileGraphqlResources (.many
        [{ schema := some "type Query" }, {},
         { schema := some "type Query" }])).typeDefs
      = ["type Query", "type Query"] := by
  have h := compile_typeDefs_projection (.many
    [{ schema := some "type Query" }, {}, { schema := some "type Query" }])
  rw [h.1]
  rfl

/-- C5: a bare (non-array) module descriptor compiles identically to the
one-element array containing it: same `typeDefs`, same `resolvers`, and
the same `getContext` behaviour on every argument. -/
theorem compile_single_module (m : Module) (req : JArg) :
    (compileGraphqlResources (.single m)).typeDefs
        = (compileGraphqlResources (.many [m])).typeDefs
    ∧ (compileGraphqlResources (.single m)).resolvers
        = (compileGraphqlResources (.many [m])).resolvers
    ∧ (compileGraphqlResources (.single m)).getContext req
        = (compileGraphqlResources (.many [m])).getContext req :=
  ⟨rfl, rfl, rfl⟩

/-- C7: when a collected `context` function throws (and the functions
called before it return normally), the exact thrown value propagates to
the caller of `getContext`, unwrapped. -/
theorem getContext_propagates_thrown (input : ModulesInput) (req : JArg)
    (pre post : List ContextFn) (f : ContextFn) (e : JVal)
    (hsplit : getContextFns (arrify input) = pre ++ f :: post)
    (hpre : ∀ g ∈ pre, ∃ o, g req = .ok o)
    (hf : f req = .error e) :
    (compileGraphqlResources input).getContext req = .error e := by
  show (juxt (getContextFns (arrify input)) req).map mergeAll = .error e
  rw [hsplit, juxt_append_error pre post f req e hpre hf]
  rfl

/-- Witness for `C7`: the second module's context function throws the
value `leaf 13`, and `getContext` surfaces exactly that value. -/
theorem getContext_propagates_thrown_witness :
    (compileGraphqlResources (.many
        [{ context := some (fun _ => .ok [("a", .leaf 1)]) },
         { context := some (fun _ => .error (.leaf 13)) }])).getContext none
      = .error (.leaf 13) := by
  refine getContext_propagates_thrown (.many
      [{ context := some (fun _ => .ok [("a", .leaf 1)]) },
       { context := some (fun _ => .error (.leaf 13)) }]) none
    [fun _ => .ok [("a", .leaf 1)]] [] (fun _ => .error (.leaf 13)) (.leaf 13)
    rfl ?_ rfl
  intro g hg
  rw [List.mem_singleton] at hg
  subst hg
  exact ⟨[("a", .leaf 1)], rfl⟩

/-- C10: when no descriptor supplies a `context` function, `getContext`
returns the empty object on every argument. -/
theorem getContext_no_context_fns (input : ModulesInput) (req : JArg)
    (h : ∀ m ∈ arrify input, m.context = none) :
    (compileGraphqlResources input).getContext req = .ok [] := by
  show (juxt (getContextFns (arrify input)) req).map mergeAll = .ok []
  rw [getContextFns_eq_nil _ h]
  rfl

/-- Witness for `C10`: two context-less modules yield the empty context
object. -/
theorem getContext_no_context_fns_witness :
    (compileGraphqlResources (.many
        [{ schema := some "type Query" }, {}])).getContext (some (.leaf 5))
      = .ok [] := by
  refine getContext_no_context_fns
    (.many [{ schema := some "type Query" }, {}]) (some (.leaf 5)) ?_
  intro m hm
  fin_cases hm <;> rfl

/-- When the bundle's `getContext` and the parser both return normally,
`getOptions` succeeds with the record whose `contextValue` merges the
explicit context under the module-derived one and whose remaining fields
pass through. -/
theorem getOptions_ok {S D : Type} (schema : S)
    (parse : String → Except JVal D) (resources : GraphqlResources)
    (query : String) (gopts : Option GraphqlOptions) (ctx : JObj) (doc : D)
    (hctx : resources.getContext (gopts.getD {}).contextArg = .ok ctx)
    (hdoc : parse query = .ok doc) :
    getOptions schema parse resources query gopts = .ok
      { schema := schema
        document := doc
        contextValue := assignRight ((gopts.getD {}).contextValue.getD []) ctx
        contextArg := (gopts.getD {}).contextArg
        rootValue := (gopts.getD {}).rootValue
        operationName := (gopts.getD {}).operationName
        variableValues := (gopts.getD {}).variableValues } := by
  simp only [getOptions, hctx, hdoc]

/-- C4: for every executor built from `input`, every query and every
options object, the effective `contextValue` handed to the execution
collaborator by `run` and to the subscription collaborator by `subscribe`
is the shallow merge of `options.contextValue` (applied first, lower
precedence) with the bundle's `getContext(options.contextArg)` result
(applied second, higher precedence): on a top-level key collision the
module-derived field overrides the explicitly supplied one (third and
fourth conjuncts). -/
theorem run_subscribe_effective_context {S D Res R C : Type}
    (makeES : List String → JObj → S) (parse : String → Except JVal D)
    (execute : ExecOptions S D → Res)
    (subscribeExec : ExecOptions S D → Except JVal (List R))
    (callback : R → C) (input : ModulesInput) (query : String)
    (gopts : Option GraphqlOptions) (opts : GraphqlOptions) (ctx : JObj)
    (doc : D) (hopts : gopts.getD {} = opts)
    (hctx : (compileGraphqlResources input).getContext opts.contextArg
      = .ok ctx)
    (hdoc : parse query = .ok doc) :
    runQuery makeES parse execute input query gopts
      = .ok (execute
          { schema := createExecutorSchema makeES input
            document := doc
            contextValue := assignRight (opts.contextValue.getD []) ctx
            contextArg := opts.contextArg
            rootValue := opts.rootValue
            operationName := opts.operationName
            variableValues := opts.variableValues })
    ∧ runSubscribe makeES parse subscribeExec input query gopts callback
      = (subscribeExec
          { schema := createExecutorSchema makeES input
            document := doc
            contextValue := assignRight (opts.contextValue.getD []) ctx
            contextArg := opts.contextArg
            rootValue := opts.rootValue
            operationName := opts.operationName
            variableValues := opts.variableValues }).map
          (fun results => forAwaitEach results callback)
    ∧ (∀ (k : String) (v : JVal), lookupField ctx k = some v →
        lookupField (assignRight (opts.contextValue.getD []) ctx) k = some v)
    ∧ (∀ k : String, lookupField ctx k = none →
        lookupField (assignRight (opts.contextValue.getD []) ctx) k
          = lookupField (opts.contextValue.getD []) k) := by
  subst hopts
  have hget := getOptions_ok (createExecutorSchema makeES input) parse
    (compileGraphqlResources input) query gopts ctx doc hctx hdoc
  refine ⟨?_, ?_, ?_, ?_⟩
  · simp only [runQuery, hget]
  · simp only [runSubscribe, hget]
    rcases subscribeExec _ with e | results <;> simp [Except.map]
  · intro k v hk
    rw [lookupField_assignRight, hk]
  · intro k hk
    rw [lookupField_assignRight, hk]

/-- Witness for `C4`: the module context `{hello: leaf 1}` overrides the
colliding explicit key `hello` and the extra explicit key `yet` survives. -/
theorem run_subscribe_effective_context_witness :
    runQuery (fun _ _ => (0 : Nat)) (fun q => .ok q)
        (fun o => o.contextValue)
        (.many [{ context := some (fun _ => .ok [("hello", .leaf 1)]) }]) "q"
        (some { contextValue := some [("hello", .leaf 9), ("yet", .leaf 2)] })
      = .ok [("hello", .leaf 1), ("yet", .leaf 2)] := by
  have h := run_subscribe_effective_context (fun _ _ => (0 : Nat))
      (fun q => .ok q) (fun o => o.contextValue)
      (fun _ => .ok ([] : List Nat)) (fun n : Nat => n)
      (.many [{ context := some (fun _ => .ok [("hello", .leaf 1)]) }]) "q"
      (some { contextValue := some [("hello", .leaf 9), ("yet", .leaf 2)] })
      { contextValue := some [("hello", .leaf 9), ("yet", .leaf 2)] }
      [("hello", .leaf 1)] "q" rfl rfl rfl
  rw [h.1]
  rfl

/-- C6: `subscribe` resolves the options exactly as `run` does (the shared
`options` record of the first two conjuncts), obtains the asynchronous
sequence of results from the subscription collaborator, invokes the
callback once per produced value in arrival order (the invocation trace is
`results.map callback`), completes when the sequence completes, and
carries the collaborator's rejection through unchanged. -/
theorem subscribe_iterates_callback {S D Res R C : Type}
    (makeES : List String → JObj → S) (parse : String → Except JVal D)
    (execute : ExecOptions S D → Res)
    (subscribeExec : ExecOptions S D → Except JVal (List R))
    (callback : R → C) (input : ModulesInput) (query : String)
    (gopts : Option GraphqlOptions) (opts : GraphqlOptions) (ctx : JObj)
    (doc : D) (hopts : gopts.getD {} = opts)
    (hctx : (compileGraphqlResources input).getContext opts.contextArg
      = .ok ctx)
    (hdoc : parse query = .ok doc) :
    ∃ options : ExecOptions S D,
      getOptions (createExecutorSchema makeES input) parse
          (compileGraphqlResources input) query gopts = .ok options
      ∧ runQuery makeES parse execute input query gopts
          = .ok (execute options)
      ∧ (∀ results : List R, subscribeExec options = .ok results →
          runSubscribe makeES parse subscribeExec input query gopts callback
            = .ok (results.map callback))
      ∧ (∀ e : JVal, subscribeExec options = .error e →
          runSubscribe makeES parse subscribeExec input query gopts callback
            = .error e) := by
  subst hopts
  have hget := getOptions_ok (createExecutorSchema makeES input) parse
    (compileGraphqlResources input) query gopts ctx doc hctx hdoc
  refine ⟨_, hget, ?_, ?_, ?_⟩
  · simp only [runQuery, hget]
  · intro results hres
    simp only [runSubscribe, hget, hres]
    rfl
  · intro e herr
    simp only [runSubscribe, hget, herr]

/-- Witness for `C6`: a concrete three-element sequence; the callback is
invoked once per value in order. -/
theorem subscribe_iterates_callback_witness :
    runSubscribe (fun _ _ => (0 : Nat)) (fun q => .ok q)
        (fun _ => .ok [10, 20, 30])
        (.many [{ context := some (fun _ => .ok [("hello", .leaf 1)]) }]) "q"
        none (fun n : Nat => n + 1)
      = .ok [11, 21, 31] := by
  obtain ⟨options, hopt, hrun, hok, herr⟩ := subscribe_iterates_callback
      (fun _ _ => (0 : Nat)) (fun q => .ok q)
      (fun o : ExecOptions Nat String => o.contextValue)
      (fun _ => .ok [10, 20, 30])
      (fun n : Nat => n + 1)
      (.many [{ context := some (fun _ => .ok [("hello", .leaf 1)]) }]) "q"
      none {} [("hello", .leaf 1)] "q" rfl rfl rfl
  rw [hok [10, 20, 30] rfl]
  rfl

/-- C9: `run` and `subscribe` may be called with the options argument
omitted entirely (`none`): the options default to the empty object, so the
call executes with `contextValue` equal to the bundle's
`getContext(undefined)` result and with `rootValue`, `operationName` and
`variableValues` absent. -/
theorem run_omitted_options {S D Res R C : Type}
    (makeES : List String → JObj → S) (parse : String → Except JVal D)
    (execute : ExecOptions S D → Res)
    (subscribeExec : ExecOptions S D → Except JVal (List R))
    (callback : R → C) (input : ModulesInput) (query : String) (ctx : JObj)
    (doc : D)
    (hctx : (compileGraphqlResources input).getContext none = .ok ctx)
    (hdoc : parse query = .ok doc) :
    runQuery makeES parse execute input query none
      = .ok (execute
          { schema := createExecutorSchema makeES input
            document := doc
            contextValue := ctx
            contextArg := none
            rootValue := none
            operationName := none
            variableValues := none })
    ∧ runSubscribe makeES parse subscribeExec input query none callback
      = (subscribeExec
          { schema := createExecutorSchema makeES input
            document := doc
            contextValue := ctx
            contextArg := none
            rootValue := none
            operationName := none
            variableValues := none }).map
          (fun results => forAwaitEach results callback) := by
  have hget := getOptions_ok (createExecutorSchema makeES input) parse
    (compileGraphqlResources input) query none ctx doc hctx hdoc
  simp only [Option.getD] at hget
  rw [assignRight_nil_left] at hget
  refine ⟨?_, ?_⟩
  · simp only [runQuery, hget]
  · simp only [runSubscribe, hget]
    rcases subscribeExec _ with e | results <;> simp [Except.map]

/-- Witness for `C9`: a `run` call with the options omitted executes with
the module context and with the pass-through fields absent. -/
theorem run_omitted_options_witness :
    runQuery (fun _ _ => (0 : Nat)) (fun q => .ok q)
        (fun o : ExecOptions Nat String =>
          (o.contextValue, o.rootValue, o.operationName, o.variableValues))
        (.many [{ context := some (fun _ => .ok [("hello", .leaf 1)]) }]) "q"
        none
      = .ok ([("hello", .leaf 1)], none, none, none) := by
  have h := run_omitted_options (fun _ _ => (0 : Nat)) (fun q => .ok q)
      (fun o : ExecOptions Nat String =>
        (o.contextValue, o.rootValue, o.operationName, o.variableValues))
      (fun _ => .ok ([] : List Nat)) (fun n : Nat => n)
      (.many [{ context := some (fun _ => .ok [("hello", .leaf 1)]) }]) "q"
      [("hello", .leaf 1)] "q" rfl rfl
  rw [h.1]

end ApolloHelpers
